import Mathlib

set_option linter.unusedSectionVars false
set_option linter.unusedVariables false

/-!
Verification development for the group-ordering engine of the
wednesday-world-cup backend (`core/src/group/order.rs`,
`core/src/group/stats.rs`), shallowly embedded in Lean.

Conventions of the embedding:
* `TeamId` and `TeamRank` are `Nat` (the Rust newtypes over `u8` are opaque
  identifiers / small ranks; no arithmetic overflows them in the embedded code).
* Rust `HashMap` values are association lists (`List (κ × β)`) with first-match
  lookup (`alist_get`); `HashMap::get` returning `None` maps to `Option.none`.
* A Rust panic (`expect`, `unwrap`, out-of-bounds indexing) is modelled by an
  `Option`-valued function returning `none`; `none` propagates like a panic.
* Statistic kinds (`UnaryStat: Ord + Copy + Zero + AddAssign`) are modelled by
  a value type `S` with `[LinearOrder S] [Zero S] [Add S]` and a per-game
  delta function, exactly the data of the Rust trait.
* The ambient randomness drawn by the `Random` tiebreaker (`rand::thread_rng`)
  is modelled by an explicit oracle `ρ : TeamId → TeamId → Bool` giving the
  outcome of the draw for each comparison.
-/

namespace Wwc

abbrev TeamId := Nat

abbrev TeamRank := Nat

/-- Final score of a played game (`score.home`, `score.away` are goal counts). -/
structure Score where
  home : Nat
  away : Nat
deriving DecidableEq, Repr

/-- Played group game (`core/src/group/game.rs` fields used by the ordering
engine; fair-play card counts and the date do not enter any embedded claim and
are omitted from the record). -/
structure PlayedGroupGame where
  id : Nat
  home : TeamId
  away : TeamId
  score : Score
deriving DecidableEq, Repr

/-- Modelled from the spec: the `Group` data type itself lives in
`core/src/group/mod.rs`, which is not among the provided sources; per the spec
a group is "a team-identifier set plus a collection of played games".  Both
`Group::teams()` (used by `team_stats`) and `Group::team_ids()` (used by
`NonStrictGroupOrder::init` and `UefaRanking::try_new`) iterate over the team
identifiers, so both are modelled by the `teams` field. -/
structure Group where
  teams : List TeamId
  played_games : List PlayedGroupGame
deriving DecidableEq, Repr

def Group.team_ids (g : Group) : List TeamId := g.teams

/-- First-match association-list lookup, the model of `HashMap::get`. -/
def alist_get {κ β : Type} [DecidableEq κ] (m : List (κ × β)) (k : κ) : Option β :=
  match m with
  | [] => none
  | (k', v) :: rest => if k' = k then some v else alist_get rest k

/-- Model of `acc.get_mut(&id).expect(...); *stats += d` in
`UnaryStat::team_stats`: add `d` to the value stored at key `id`, returning
`none` (the panic) when the key is absent. -/
def alist_add {β : Type} [Add β] (m : List (TeamId × β)) (id : TeamId) (d : β) :
    Option (List (TeamId × β)) :=
  match m with
  | [] => none
  | (k, v) :: rest =>
    if k = id then some ((k, v + d) :: rest)
    else (alist_add rest id d).map (fun r => (k, v) :: r)

/-- The data of the Rust `UnaryStat` trait: the per-game
`(home-delta, away-delta)` pair.  Zero, addition and the total order on the
statistic value type come from the `[Zero S] [Add S] [LinearOrder S]`
context. -/
structure UnaryStat (S : Type) where
  stat : PlayedGroupGame → S × S

variable {S : Type} [LinearOrder S] [Zero S] [Add S]

/-- `UnaryStat::team_stats` (`core/src/group/stats.rs`): initialise every team
of the group to zero, then fold every played game's deltas into the home and
away accumulators.  `none` models the `expect` panic when a game references a
team outside the map. -/
def team_stats (U : UnaryStat S) (group : Group) : Option (List (TeamId × S)) :=
  group.played_games.foldlM
    (fun acc game =>
      (alist_add acc game.home (U.stat game).1).bind
        (fun acc => alist_add acc game.away (U.stat game).2))
    (group.teams.map (fun team => (team, 0)))

/-- Modelled from the spec: `UnaryStat::internal_team_stats` is called from
`InternalGroupStat::order` but its definition (in `core/src/group/stats.rs`)
is not among the provided sources.  Per spec section 4.1 it is the "identical
fold, restricted to games where both participants belong to `subset`". -/
def internal_team_stats (U : UnaryStat S) (group : Group) (subset : List TeamId) :
    Option (List (TeamId × S)) :=
  (group.played_games.filter
      (fun game => decide (game.home ∈ subset) && decide (game.away ∈ subset))).foldlM
    (fun acc game =>
      (alist_add acc game.home (U.stat game).1).bind
        (fun acc => alist_add acc game.away (U.stat game).2))
    (group.teams.map (fun team => (team, 0)))

/-- `GroupPoint`'s `UnaryStat::stat` (`core/src/group/stats.rs`): 3 points for
a win, 1 each for a draw.  Statistic values are embedded in `Int`. -/
def groupPointStat : UnaryStat Int :=
  ⟨fun game =>
    if game.score.home > game.score.away then (3, 0)
    else if game.score.home < game.score.away then (0, 3)
    else (1, 1)⟩

/-- `GoalDiff`'s `UnaryStat::stat`: `(home - away, -(home - away))`. -/
def goalDiffStat : UnaryStat Int :=
  ⟨fun game =>
    ((game.score.home : Int) - game.score.away,
     -((game.score.home : Int) - game.score.away))⟩

/-- `GoalCount`'s `UnaryStat::stat`: `(home, away)`. -/
def goalCountStat : UnaryStat Int :=
  ⟨fun game => ((game.score.home : Int), (game.score.away : Int))⟩

/-!  The intermediate non-strict order (`NonStrictGroupOrder`), represented as
its underlying `Vec<Vec<TeamId>>`. -/

/-- `NonStrictGroupOrder`: a sorted (best-to-worst) sequence of subsets of
mutually tied teams. -/
abbrev NonStrictOrder := List (List TeamId)

namespace NonStrictGroupOrder

/-- `NonStrictGroupOrder::single`. -/
def single (x : List TeamId) : NonStrictOrder := [x]

/-- `NonStrictGroupOrder::empty`. -/
def empty : NonStrictOrder := []

/-- `NonStrictGroupOrder::init`: one subset containing all the group's teams. -/
def init (group : Group) : NonStrictOrder := [group.team_ids]

/-- `NonStrictGroupOrder::is_strict`: all subsets have exactly one element. -/
def is_strict (o : NonStrictOrder) : Bool := o.all (fun x => x.length == 1)

/-- `NonStrictGroupOrder::extend_sub_order`: pop the last subset (or start a
fresh one when the sequence is empty), push `team` into it, push it back. -/
def extend_sub_order (o : NonStrictOrder) (team : TeamId) : NonStrictOrder :=
  o.dropLast ++ [(o.getLast?.getD []) ++ [team]]

/-- `NonStrictGroupOrder::add_sub_order`: append a fresh singleton subset. -/
def add_sub_order (o : NonStrictOrder) (team : TeamId) : NonStrictOrder :=
  o ++ [[team]]

/-- `NonStrictGroupOrder::extend`: concatenation of the two sequences. -/
def extend (o sub_order : NonStrictOrder) : NonStrictOrder := o ++ sub_order

end NonStrictGroupOrder

/-- The comparison key of `team_stats.sort_by_key(|x| x.1)`: ascending order
on the statistic value attached to each team. -/
def statLe (a b : TeamId × S) : Prop := a.2 ≤ b.2

instance : @DecidableRel (TeamId × S) (statLe) := fun a b => inferInstanceAs (Decidable (a.2 ≤ b.2))

instance : IsTotal (TeamId × S) (statLe) := ⟨fun a b => le_total a.2 b.2⟩

instance : IsTrans (TeamId × S) (statLe) := ⟨fun _ _ _ h h' => le_trans h h'⟩

/-- The accumulator step of the `team_stats.iter().rev().fold(...)` loop shared
by `AllGroupStat::order` and `InternalGroupStat::order`: merge the team into
the last subset when its statistic equals the previous one, else open a new
subset. -/
def group_fold_step (acc : S × NonStrictOrder) (x : TeamId × S) : S × NonStrictOrder :=
  if acc.1 = x.2 then (x.2, NonStrictGroupOrder.extend_sub_order acc.2 x.1)
  else (x.2, NonStrictGroupOrder.add_sub_order acc.2 x.1)

/-- The sort-free tail of `AllGroupStat::order` / `InternalGroupStat::order`:
given the (ascending) sorted `team_stats` vector, fold it in reverse starting
from `(team_stats[0].1, empty)`.  The eager indexing `team_stats[0]` panics
(`none`) on an empty vector. -/
def group_by_stat (ts : List (TeamId × S)) : Option NonStrictOrder :=
  match ts.head? with
  | none => none
  | some first =>
    some (ts.reverse.foldl group_fold_step (first.2, NonStrictGroupOrder.empty)).2

/-- The type of a boxed `dyn SubOrdering`: a rule takes the group and a tied
subset and splits the subset, possibly panicking (`none`). -/
abbrev SubOrd := Group → List TeamId → Option NonStrictOrder

/-- `<AllGroupStat<T> as SubOrdering>::order`: compute the statistic from all
games of the group, keep the teams of `order` present in the mapping paired
with their values, sort ascending by value, and fold in reverse. -/
def allGroupStatOrder (U : UnaryStat S) : SubOrd := fun group order => do
  let stats_all_teams ← team_stats U group
  let ts := order.filterMap (fun id => (alist_get stats_all_teams id).map (fun v => (id, v)))
  group_by_stat (List.insertionSort statLe ts)

/-- `<InternalGroupStat<T> as SubOrdering>::order`: same as
`allGroupStatOrder` but the statistic is computed only from games internal to
the subset being ordered. -/
def internalGroupStatOrder (U : UnaryStat S) : SubOrd := fun group order => do
  let internal_stats ← internal_team_stats U group order
  let ts := order.filterMap (fun id => (alist_get internal_stats id).map (fun v => (id, v)))
  group_by_stat (List.insertionSort statLe ts)

/-- The body of one refinement step of `non_strict_ordering`: fold over the
current subsets, passing a subset through unchanged when it has at most one
element and replacing it by the current rule's output otherwise, extending the
accumulated sequence each time. -/
def nso_step (group : Group) (rule : SubOrd) (so : NonStrictOrder) : Option NonStrictOrder :=
  so.foldlM
    (fun acc x =>
      (if 1 < x.length then rule group x else some (NonStrictGroupOrder.single x)).bind
        (fun new_order => some (NonStrictGroupOrder.extend acc new_order)))
    NonStrictGroupOrder.empty

/-- `non_strict_ordering` (`core/src/group/order.rs`): return the input order
when it is strict or no rules remain, otherwise apply the first rule to every
still-tied subset and recurse with the remaining rules. -/
def non_strict_ordering (group : Group) : List SubOrd → NonStrictOrder → Option NonStrictOrder
  | [], sub_order => some sub_order
  | rule :: remaining_rules, sub_order =>
    if NonStrictGroupOrder.is_strict sub_order then some sub_order
    else (nso_step group rule sub_order).bind (non_strict_ordering group remaining_rules)

/-- `GroupError` (`core/src/group/mod.rs` variants used by the embedded code). -/
inductive GroupError where
  | NonStrictOrder
  | GenericError
deriving DecidableEq, Repr

/-- The final strict order, `GroupOrder`: best-to-worst list of team ids. -/
abbrev GroupOrder := List TeamId

/-- `impl TryFrom<NonStrictGroupOrder> for GroupOrder`: succeed with the
singletons' elements when the sequence is strict, else report
`GroupError::NonStrictOrder`. -/
def group_order_try_from (value : NonStrictOrder) : Except GroupError GroupOrder :=
  if NonStrictGroupOrder.is_strict value then
    Except.ok (value.map (fun x => x.headD 0))
  else Except.error GroupError.NonStrictOrder

/-- `GroupOrder::index` (`impl Index<GroupRank> for GroupOrder`): vector
indexing, panicking (`none`) out of bounds. -/
def GroupOrder.index (o : GroupOrder) (idx : Nat) : Option TeamId := o.get? idx

/-- `GroupOrder::winner`: the team at rank 0. -/
def GroupOrder.winner (o : GroupOrder) : Option TeamId := GroupOrder.index o 0

/-- `GroupOrder::runner_up`: the team at rank 1. -/
def GroupOrder.runner_up (o : GroupOrder) : Option TeamId := GroupOrder.index o 1

/-- The three tiebreakers implemented in `core/src/group/order.rs`.  `manual`
carries the `HashMap<(TeamId, TeamId), Ordering>` lookup table, `uefaRanking`
the `HashMap<TeamId, TeamRank>` ranking map. -/
inductive Tiebreaker where
  | manual (table : List ((TeamId × TeamId) × Ordering))
  | random
  | uefaRanking (ranking_map : List (TeamId × TeamRank))
deriving DecidableEq

/-- `Tiebreaker::cmp` for the three implementations.  `ρ` is the explicit
randomness oracle consumed only by `Random` (whose Rust code draws
`rng.gen::<f32>() > 0.5` from the ambient thread rng); `manual` panics
(`none`) on a missing pair, `uefaRanking` compares the ranks reversed so that
a small rank is better. -/
def Tiebreaker.cmp : Tiebreaker → (TeamId → TeamId → Bool) → TeamId → TeamId → Option Ordering
  | .manual table, _, id_1, id_2 => alist_get table (id_1, id_2)
  | .random, ρ, id_1, id_2 => some (if ρ id_1 id_2 then Ordering.lt else Ordering.gt)
  | .uefaRanking ranking_map, _, id_1, id_2 =>
    match alist_get ranking_map id_1, alist_get ranking_map id_2 with
    | some rank_1, some rank_2 => some (compare rank_2 rank_1)
    | _, _ => none

/-- The monadic insertion step of the model of `Vec::sort_by`: insert `a` into
an already sorted list, moving past every element `b` with `cmp a b = Greater`
and propagating a comparator panic. -/
def insertM (cmp : TeamId → TeamId → Option Ordering) (a : TeamId) :
    List TeamId → Option (List TeamId)
  | [] => some [a]
  | b :: bs => do
    let o ← cmp a b
    if o = Ordering.gt then
      let r ← insertM cmp a bs
      some (b :: r)
    else some (a :: b :: bs)

/-- Model of `tmp_order.sort_by(|a, b| self.cmp(*a, *b))`: a stable sort into
ascending comparator order, `none` when the comparator panics on a consulted
pair. -/
def sortByM (cmp : TeamId → TeamId → Option Ordering) : List TeamId → Option (List TeamId)
  | [] => some []
  | a :: rest => do
    let r ← sortByM cmp rest
    insertM cmp a r

/-- `Tiebreaker::order_sub_group`: sort the tied teams ascending by the
pairwise comparator, then reverse (best first). -/
def order_sub_group (cmp : TeamId → TeamId → Option Ordering) (_ : Group)
    (order : List TeamId) : Option GroupOrder := do
  let tmp_order ← sortByM cmp order
  some tmp_order.reverse

/-- `Tiebreaker::order` (the trait's default method): keep singleton subsets
as they are, expand every larger subset through `order_sub_group`, and
concatenate in sequence order. -/
def tiebreaker_order (cmp : TeamId → TeamId → Option Ordering) (group : Group)
    (non_strict : NonStrictOrder) : Option GroupOrder :=
  non_strict.foldlM
    (fun acc x =>
      if x.length == 1 then some (acc ++ [x.headD 0])
      else do
        let sub ← order_sub_group cmp group x
        some (acc ++ sub))
    []

/-- `Rules<T>`: the ordered rule list and the tiebreaker. -/
structure Rules where
  non_strict : List SubOrd
  tiebreaker : Tiebreaker

/-- `order_group`: run the non-strict refinement from the initial one-subset
order; if the result is not strict let the tiebreaker finish, otherwise
convert directly (the `unwrap` cannot fail on a strict order). -/
def order_group (group : Group) (rules : Rules) (ρ : TeamId → TeamId → Bool) :
    Option GroupOrder := do
  let possibly_non_strict ←
    non_strict_ordering group rules.non_strict (NonStrictGroupOrder.init group)
  if NonStrictGroupOrder.is_strict possibly_non_strict = false then
    tiebreaker_order (rules.tiebreaker.cmp ρ) group possibly_non_strict
  else
    match group_order_try_from possibly_non_strict with
    | Except.ok o => some o
    | Except.error _ => none

/-- `UefaRanking::try_new`: succeed with the ranking map when every team of
every group has a rank, else `GroupError::GenericError`. -/
def UefaRanking.try_new (groups : List Group) (ranking_map : List (TeamId × TeamRank)) :
    Except GroupError (List (TeamId × TeamRank)) :=
  if ((groups.map Group.team_ids).flatten).all (fun x => (alist_get ranking_map x).isSome) then
    Except.ok ranking_map
  else Except.error GroupError.GenericError

/-- A small concrete group shared by several evaluation witnesses: two teams
and one drawn game between them, leaving them tied on every statistic. -/
def sampleGroup : Group := ⟨[0, 1], [⟨0, 0, 1, ⟨1, 1⟩⟩]⟩

/-- A concrete rule set: order by points, then resolve by a manual tiebreaker
whose lookup table is empty. -/
def sampleRules : Rules := ⟨[allGroupStatOrder groupPointStat], Tiebreaker.manual []⟩

/-! ### General lemmas about the embedded definitions -/

theorem except_isOk_ok {ε α : Type} (a : α) : (Except.ok a : Except ε α).isOk = true := rfl

theorem except_isOk_error {ε α : Type} (e : ε) :
    (Except.error e : Except ε α).isOk = false := rfl

theorem is_strict_iff {o : NonStrictOrder} :
    NonStrictGroupOrder.is_strict o = true ↔ ∀ x ∈ o, x.length = 1 := by
  simp [NonStrictGroupOrder.is_strict, List.all_eq_true]

theorem alist_get_isSome_iff {κ β : Type} [DecidableEq κ] {m : List (κ × β)} {k : κ} :
    (alist_get m k).isSome = true ↔ k ∈ m.map Prod.fst := by
  induction m with
  | nil => simp [alist_get]
  | cons p rest ih =>
    obtain ⟨k', v⟩ := p
    by_cases h : k' = k
    · subst h
      simp [alist_get]
    · simp [alist_get, h, ih, Ne.symm h]

theorem foldlM_extend_eq_mapM (f : List TeamId → Option NonStrictOrder) :
    ∀ (so : NonStrictOrder) (acc : NonStrictOrder),
      so.foldlM (fun a x => (f x).bind (fun y => some (a ++ y))) acc
        = (so.mapM f).map (fun l => acc ++ l.flatten) := by
  intro so
  induction so with
  | nil =>
    intro acc
    rw [List.mapM_nil, List.foldlM_nil]
    simp
  | cons x rest ih =>
    intro acc
    rw [List.foldlM_cons, List.mapM_cons]
    cases hfx : f x with
    | none => simp [Option.bind]
    | some y =>
      simp only [Option.bind_eq_bind, Option.some_bind]
      rw [ih (acc ++ y)]
      cases hrest : rest.mapM f with
      | none => simp
      | some l => simp [List.append_assoc]

theorem nso_step_eq_mapM (group : Group) (rule : SubOrd) (so : NonStrictOrder) :
    nso_step group rule so =
      (so.mapM (fun x => if 1 < x.length then rule group x else some [x])).map
        List.flatten := by
  have h := foldlM_extend_eq_mapM
    (fun x => if 1 < x.length then rule group x else some [x]) so []
  simpa [nso_step, NonStrictGroupOrder.extend, NonStrictGroupOrder.empty,
    NonStrictGroupOrder.single] using h

/-! ### Claim theorems -/

/-- Claim C1: each refinement step of `non_strict_ordering` treats every
subset independently — singletons pass through unchanged with the rule never
invoked, larger subsets are replaced by the current rule's output — and the
results are concatenated in the original subset order; the iteration stops
exactly when the sequence is strict or no rules remain, the strictness check
being made before each step. -/
theorem c1_refinement_step (group : Group) (rule : SubOrd)
    (remaining_rules : List SubOrd) (so : NonStrictOrder) :
    (NonStrictGroupOrder.is_strict so = true →
      non_strict_ordering group (rule :: remaining_rules) so = some so) ∧
    (non_strict_ordering group [] so = some so) ∧
    (nso_step group rule so =
      (so.mapM (fun x => if 1 < x.length then rule group x else some [x])).map
        List.flatten) ∧
    (NonStrictGroupOrder.is_strict so = false →
      non_strict_ordering group (rule :: remaining_rules) so =
        ((so.mapM (fun x => if 1 < x.length then rule group x else some [x])).map
          List.flatten).bind (non_strict_ordering group remaining_rules)) := by
  refine ⟨fun h => ?_, rfl, nso_step_eq_mapM group rule so, fun h => ?_⟩
  · simp [non_strict_ordering, h]
  · simp only [non_strict_ordering, h, Bool.false_eq_true, if_false]
    rw [nso_step_eq_mapM]

theorem c1_witness :
    NonStrictGroupOrder.is_strict [[0, 1]] = false ∧
    non_strict_ordering sampleGroup [allGroupStatOrder groupPointStat] [[0, 1]] =
      ((([[0, 1]] : NonStrictOrder).mapM
        (fun x => if 1 < x.length then allGroupStatOrder groupPointStat sampleGroup x
          else some [x])).map List.flatten).bind (non_strict_ordering sampleGroup []) :=
  ⟨by decide,
    (c1_refinement_step sampleGroup (allGroupStatOrder groupPointStat) [] [[0, 1]]).2.2.2
      (by decide)⟩

/-- Claim C4: converting a `NonStrictGroupOrder` to a strict `GroupOrder`
succeeds exactly when every subset is a singleton, yielding the singletons'
elements in order (same length, nothing truncated); otherwise it returns the
typed failure `GroupError::NonStrictOrder`. -/
theorem c4_try_from_strict (ns : NonStrictOrder) :
    (NonStrictGroupOrder.is_strict ns = true →
      group_order_try_from ns = Except.ok (ns.map (fun x => x.headD 0))) ∧
    (NonStrictGroupOrder.is_strict ns = false →
      group_order_try_from ns = Except.error GroupError.NonStrictOrder) ∧
    (∀ o, group_order_try_from ns = Except.ok o →
      NonStrictGroupOrder.is_strict ns = true ∧ o.length = ns.length) := by
  refine ⟨fun h => ?_, fun h => ?_, fun o h => ?_⟩
  · simp [group_order_try_from, h]
  · simp [group_order_try_from, h]
  · by_cases hs : NonStrictGroupOrder.is_strict ns = true
    · refine ⟨hs, ?_⟩
      simp only [group_order_try_from, hs, if_true, Except.ok.injEq] at h
      simp [← h]
    · simp [group_order_try_from, hs] at h

theorem c4_witness :
    NonStrictGroupOrder.is_strict [[5], [7]] = true ∧
    group_order_try_from [[5], [7]] = Except.ok [5, 7] ∧
    NonStrictGroupOrder.is_strict [[5, 7]] = false ∧
    group_order_try_from [[5, 7]] = Except.error GroupError.NonStrictOrder :=
  ⟨by decide, (c4_try_from_strict [[5], [7]]).1 (by decide), by decide,
    (c4_try_from_strict [[5, 7]]).2.1 (by decide)⟩

theorem tiebreaker_order_strict_aux (cmp : TeamId → TeamId → Option Ordering)
    (group : Group) :
    ∀ (ns : NonStrictOrder) (acc : List TeamId), (∀ x ∈ ns, x.length = 1) →
      ns.foldlM
        (fun acc x =>
          if x.length == 1 then some (acc ++ [x.headD 0])
          else do
            let sub ← order_sub_group cmp group x
            some (acc ++ sub))
        acc = some (acc ++ ns.map (fun x => x.headD 0)) := by
  intro ns
  induction ns with
  | nil => intro acc _; simp
  | cons x rest ih =>
    intro acc h
    have hx : x.length = 1 := h x (by simp)
    rw [List.foldlM_cons]
    have hstep :
        (if x.length == 1 then some (acc ++ [x.headD 0])
          else do
            let sub ← order_sub_group cmp group x
            some (acc ++ sub)) = some (acc ++ [x.headD 0]) := by
      simp [hx]
    rw [hstep]
    show List.foldlM
        (fun acc x =>
          if x.length == 1 then some (acc ++ [x.headD 0])
          else do
            let sub ← order_sub_group cmp group x
            some (acc ++ sub))
        (acc ++ [x.headD 0]) rest = _
    rw [ih (acc ++ [x.headD 0]) (fun y hy => h y (by simp [hy]))]
    simp

/-- Claim C5: applying any tiebreaker's `order` method to an already strict
tied-subset sequence returns exactly the singletons' elements in their
original order, for every pairwise comparator (so no comparator call can
influence — or fail — the result). -/
theorem c5_tiebreaker_idempotence (cmp : TeamId → TeamId → Option Ordering)
    (group : Group) (ns : NonStrictOrder)
    (h : NonStrictGroupOrder.is_strict ns = true) :
    tiebreaker_order cmp group ns = some (ns.map (fun x => x.headD 0)) := by
  have := tiebreaker_order_strict_aux cmp group ns [] (is_strict_iff.mp h)
  simpa [tiebreaker_order] using this

theorem c5_witness :
    NonStrictGroupOrder.is_strict [[4], [2], [9]] = true ∧
    tiebreaker_order (fun _ _ => none) sampleGroup [[4], [2], [9]] = some [4, 2, 9] :=
  ⟨by decide,
    c5_tiebreaker_idempotence (fun _ _ => none) sampleGroup [[4], [2], [9]] (by decide)⟩

/-- Claim C6: `order_group` is deterministic for any rule set whose tiebreaker
is not the random one — the randomness oracle is consulted only by `Random`,
so two calls with arbitrary (different) oracles return identical results. -/
theorem c6_determinism (group : Group) (rules : Rules)
    (h : rules.tiebreaker ≠ Tiebreaker.random) (ρ1 ρ2 : TeamId → TeamId → Bool) :
    order_group group rules ρ1 = order_group group rules ρ2 := by
  obtain ⟨nsr, tb⟩ := rules
  cases tb with
  | manual table => rfl
  | random => exact absurd rfl h
  | uefaRanking m => rfl

theorem c6_witness :
    sampleRules.tiebreaker ≠ Tiebreaker.random ∧
    order_group sampleGroup sampleRules (fun _ _ => true) =
      order_group sampleGroup sampleRules (fun _ _ => false) :=
  ⟨by decide, c6_determinism sampleGroup sampleRules (by decide) _ _⟩

/-- Claim C7: `UefaRanking::try_new` succeeds exactly when every team of every
supplied group has an entry in the ranking map, failing with a `GroupError` at
construction otherwise; after a successful construction, `cmp` never fails on
teams of those groups and returns `Greater` (first team better) exactly when
the first team's rank value is lower. -/
theorem c7_uefa_ranking (groups : List Group) (ranking_map : List (TeamId × TeamRank)) :
    ((UefaRanking.try_new groups ranking_map).isOk = true ↔
      ∀ t ∈ (groups.map Group.team_ids).flatten, (alist_get ranking_map t).isSome = true) ∧
    ((UefaRanking.try_new groups ranking_map).isOk = false →
      UefaRanking.try_new groups ranking_map = Except.error GroupError.GenericError) ∧
    ((UefaRanking.try_new groups ranking_map).isOk = true →
      ∀ a ∈ (groups.map Group.team_ids).flatten, ∀ b ∈ (groups.map Group.team_ids).flatten,
        ∃ ra rb, alist_get ranking_map a = some ra ∧ alist_get ranking_map b = some rb ∧
          (∀ ρ, Tiebreaker.cmp (Tiebreaker.uefaRanking ranking_map) ρ a b =
            some (compare rb ra)) ∧
          (compare rb ra = Ordering.gt ↔ ra < rb)) := by
  by_cases hc : ((groups.map Group.team_ids).flatten).all
      (fun x => (alist_get ranking_map x).isSome) = true
  · have hok : UefaRanking.try_new groups ranking_map = Except.ok ranking_map := by
      simp [UefaRanking.try_new, hc]
    have hall : ∀ t ∈ (groups.map Group.team_ids).flatten,
        (alist_get ranking_map t).isSome = true := by
      intro t ht
      exact List.all_eq_true.mp hc t ht
    refine ⟨?_, ?_, ?_⟩
    · rw [hok]
      exact iff_of_true rfl hall
    · rw [hok]
      intro h
      rw [except_isOk_ok] at h
      cases h
    · intro _ a ha b hb
      obtain ⟨ra, hra⟩ := Option.isSome_iff_exists.mp (hall a ha)
      obtain ⟨rb, hrb⟩ := Option.isSome_iff_exists.mp (hall b hb)
      refine ⟨ra, rb, hra, hrb, fun ρ => ?_, Nat.compare_eq_gt⟩
      simp [Tiebreaker.cmp, hra, hrb]
  · have herr : UefaRanking.try_new groups ranking_map =
        Except.error GroupError.GenericError := by
      simp [UefaRanking.try_new, hc]
    refine ⟨?_, fun _ => herr, ?_⟩
    · rw [herr]
      exact iff_of_false (by rw [except_isOk_error]; exact Bool.false_ne_true)
        (fun hall => hc (List.all_eq_true.mpr hall))
    · rw [herr]
      intro h
      rw [except_isOk_error] at h
      cases h

theorem c7_witness :
    (UefaRanking.try_new [⟨[0, 1], []⟩] [(0, 3), (1, 7)]).isOk = true ∧
    ∃ ra rb, alist_get [(0, 3), (1, 7)] 0 = some ra ∧ alist_get [(0, 3), (1, 7)] 1 = some rb ∧
      (∀ ρ, Tiebreaker.cmp (Tiebreaker.uefaRanking [(0, 3), (1, 7)]) ρ 0 1 =
        some (compare rb ra)) ∧
      (compare rb ra = Ordering.gt ↔ ra < rb) :=
  ⟨by decide,
    (c7_uefa_ranking [⟨[0, 1], []⟩] [(0, 3), (1, 7)]).2.2 (by decide)
      0 (by decide) 1 (by decide)⟩

/-- Claim C8: the manual tiebreaker's `cmp` succeeds exactly when the ordered
pair has an entry in its lookup table; a missing pair is a fatal condition
(the `expect` panic, modelled by `none`) rather than a default ordering, and
ordering a group whose remaining tie hits a missing pair propagates that
fatal condition through `order_group`. -/
theorem c8_manual_missing_pair (table : List ((TeamId × TeamId) × Ordering))
    (ρ : TeamId → TeamId → Bool) (id_1 id_2 : TeamId) :
    ((Tiebreaker.cmp (Tiebreaker.manual table) ρ id_1 id_2).isSome = true ↔
      (id_1, id_2) ∈ table.map Prod.fst) ∧
    order_group sampleGroup sampleRules (fun _ _ => true) = none := by
  constructor
  · exact alist_get_isSome_iff
  · decide

theorem get?_isSome_iff {α : Type} (l : List α) (n : Nat) :
    (l.get? n).isSome = true ↔ n < l.length := by
  induction l generalizing n with
  | nil => simp [List.get?]
  | cons a t ih =>
    cases n with
    | zero => simp [List.get?]
    | succ m => simpa [List.get?] using ih m

/-- Claim C9: `GroupOrder::winner` and `GroupOrder::runner_up` are partial —
they index the underlying vector at positions 0 and 1, succeeding exactly
when the order has at least one (resp. two) teams and panicking (`none`) on
shorter orders. -/
theorem c9_winner_runner_up_partiality (o : GroupOrder) :
    ((GroupOrder.winner o).isSome = true ↔ 1 ≤ o.length) ∧
    ((GroupOrder.runner_up o).isSome = true ↔ 2 ≤ o.length) ∧
    (∀ h : 0 < o.length, GroupOrder.winner o = some (o.get ⟨0, h⟩)) ∧
    (∀ h : 1 < o.length, GroupOrder.runner_up o = some (o.get ⟨1, h⟩)) := by
  refine ⟨?_, ?_, fun h => ?_, fun h => ?_⟩
  · simpa [GroupOrder.winner, GroupOrder.index] using get?_isSome_iff o 0
  · simpa [GroupOrder.runner_up, GroupOrder.index] using get?_isSome_iff o 1
  · simp [GroupOrder.winner, GroupOrder.index, List.get?_eq_getElem?,
      List.getElem?_eq_getElem h]
  · simp [GroupOrder.runner_up, GroupOrder.index, List.get?_eq_getElem?,
      List.getElem?_eq_getElem h]

theorem c9_witness :
    (0 : Nat) < ([3, 9] : GroupOrder).length ∧ GroupOrder.winner [3, 9] = some 3 ∧
    (1 : Nat) < ([3, 9] : GroupOrder).length ∧ GroupOrder.runner_up [3, 9] = some 9 :=
  ⟨by decide, (c9_winner_runner_up_partiality [3, 9]).2.2.1 (by decide), by decide,
    (c9_winner_runner_up_partiality [3, 9]).2.2.2 (by decide)⟩

/-! ### The run-grouping characterisation of `group_by_stat` -/

/-- Grouping of a (team, value) list into maximal runs of equal consecutive
values: `w` is the value of the currently open subset `c`.  This is the
specification-side description of the reverse fold performed by
`AllGroupStat::order` / `InternalGroupStat::order`. -/
def foldRunsV (w : S) (c : List TeamId) : List (TeamId × S) → List (S × List TeamId)
  | [] => [(w, c)]
  | (t, v) :: xs => if w = v then foldRunsV w (c ++ [t]) xs else (w, c) :: foldRunsV v [t] xs

theorem foldl_group_step_eq (xs : List (TeamId × S)) :
    ∀ (w : S) (c : List TeamId) (cs : NonStrictOrder),
      (xs.foldl group_fold_step (w, cs ++ [c])).2 = cs ++ (foldRunsV w c xs).map Prod.snd := by
  induction xs with
  | nil => intro w c cs; simp [foldRunsV]
  | cons x xs ih =>
    obtain ⟨t, v⟩ := x
    intro w c cs
    rw [List.foldl_cons]
    by_cases h : w = v
    · subst h
      have hstep : group_fold_step (w, cs ++ [c]) (t, w) = (w, cs ++ [c ++ [t]]) := by
        simp [group_fold_step, NonStrictGroupOrder.extend_sub_order,
          List.dropLast_concat, List.getLast?_concat]
      rw [hstep, ih w (c ++ [t]) cs]
      simp [foldRunsV]
    · have hstep : group_fold_step (w, cs ++ [c]) (t, v) = (v, (cs ++ [c]) ++ [[t]]) := by
        simp [group_fold_step, h, NonStrictGroupOrder.add_sub_order]
      rw [hstep, ih v [t] (cs ++ [c])]
      simp [foldRunsV, h]

theorem group_fold_step_first (v0 : S) (x : TeamId × S) :
    group_fold_step (v0, NonStrictGroupOrder.empty) x = (x.2, [[x.1]]) := by
  by_cases h : v0 = x.2 <;>
    simp [group_fold_step, h, NonStrictGroupOrder.extend_sub_order,
      NonStrictGroupOrder.add_sub_order, NonStrictGroupOrder.empty]

theorem group_by_stat_eq (x : TeamId × S) (xs ts : List (TeamId × S))
    (hrev : ts.reverse = x :: xs) :
    group_by_stat ts = some ((foldRunsV x.2 [x.1] xs).map Prod.snd) := by
  have hts : ts ≠ [] := by
    intro h
    rw [h] at hrev
    simp at hrev
  obtain ⟨first, rest, hcons⟩ : ∃ f r, ts = f :: r := by
    cases ts with
    | nil => exact absurd rfl hts
    | cons f r => exact ⟨f, r, rfl⟩
  unfold group_by_stat
  rw [hrev, hcons]
  simp only [List.head?_cons, List.foldl_cons, group_fold_step_first]
  have := foldl_group_step_eq xs x.2 [x.1] []
  simpa using this

theorem foldRunsV_ne_nil (w : S) (c : List TeamId) (xs : List (TeamId × S)) :
    foldRunsV w c xs ≠ [] := by
  induction xs generalizing w c with
  | nil => simp [foldRunsV]
  | cons x xs ih =>
    obtain ⟨t, v⟩ := x
    by_cases h : w = v <;> simp [foldRunsV, h, ih]

theorem foldRunsV_head_fst (w : S) (c : List TeamId) (xs : List (TeamId × S)) :
    ∀ p ∈ (foldRunsV w c xs).head?, p.1 = w := by
  induction xs generalizing w c with
  | nil => simp [foldRunsV]
  | cons x xs ih =>
    obtain ⟨t, v⟩ := x
    by_cases h : w = v
    · simpa [foldRunsV, h] using ih w (c ++ [t])
    · simp [foldRunsV, h]

theorem foldRunsV_flatten (w : S) (c : List TeamId) (xs : List (TeamId × S)) :
    ((foldRunsV w c xs).map Prod.snd).flatten = c ++ xs.map Prod.fst := by
  induction xs generalizing w c with
  | nil => simp [foldRunsV]
  | cons x xs ih =>
    obtain ⟨t, v⟩ := x
    by_cases h : w = v
    · simp [foldRunsV, h, ih]
    · simp [foldRunsV, h, ih]

theorem foldRunsV_chunk_ne_nil (w : S) (c : List TeamId) (xs : List (TeamId × S))
    (hc : c ≠ []) : ∀ p ∈ foldRunsV w c xs, p.2 ≠ [] := by
  induction xs generalizing w c with
  | nil => simpa [foldRunsV] using hc
  | cons x xs ih =>
    obtain ⟨t, v⟩ := x
    by_cases h : w = v
    · simpa [foldRunsV, h] using ih w (c ++ [t]) (by simp)
    · intro p hp
      rw [foldRunsV, if_neg h] at hp
      rcases List.mem_cons.mp hp with hp | hp
      · subst hp; exact hc
      · exact ih v [t] (by simp) p hp

theorem foldRunsV_chunk_vals (P : TeamId → S → Prop) (w : S) (c : List TeamId)
    (xs : List (TeamId × S)) (hc : ∀ t ∈ c, P t w) (hxs : ∀ p ∈ xs, P p.1 p.2) :
    ∀ q ∈ foldRunsV w c xs, ∀ t ∈ q.2, P t q.1 := by
  induction xs generalizing w c with
  | nil =>
    intro q hq
    simp only [foldRunsV, List.mem_singleton] at hq
    subst hq
    exact hc
  | cons x xs ih =>
    obtain ⟨t, v⟩ := x
    intro q hq
    by_cases h : w = v
    · rw [foldRunsV, if_pos h] at hq
      refine ih w (c ++ [t]) ?_ (fun p hp => hxs p (by simp [hp])) q hq
      intro u hu
      rcases List.mem_append.mp hu with hu | hu
      · exact hc u hu
      · rw [List.mem_singleton.mp hu, h]
        exact hxs (t, v) (by simp)
    · rw [foldRunsV, if_neg h] at hq
      rcases List.mem_cons.mp hq with hq | hq
      · subst hq; exact hc
      · refine ih v [t] ?_ (fun p hp => hxs p (by simp [hp])) q hq
        intro u hu
        rw [List.mem_singleton.mp hu]
        exact hxs (t, v) (by simp)

theorem foldRunsV_chain (w : S) (c : List TeamId) (xs : List (TeamId × S))
    (hle : ∀ p ∈ xs, p.2 ≤ w)
    (hsorted : List.Pairwise (fun a b : TeamId × S => b.2 ≤ a.2) xs) :
    List.Chain' (fun a b : S × List TeamId => b.1 < a.1) (foldRunsV w c xs) := by
  induction xs generalizing w c with
  | nil => simp [foldRunsV]
  | cons x xs ih =>
    obtain ⟨t, v⟩ := x
    rw [List.pairwise_cons] at hsorted
    by_cases h : w = v
    · rw [foldRunsV, if_pos h]
      exact ih w (c ++ [t]) (fun p hp => hle p (by simp [hp])) hsorted.2
    · rw [foldRunsV, if_neg h]
      rw [List.chain'_cons']
      refine ⟨fun y hy => ?_, ih v [t] (fun p hp => hsorted.1 p hp) hsorted.2⟩
      have : y.1 = v := foldRunsV_head_fst v [t] xs y hy
      rw [this]
      exact lt_of_le_of_ne (hle (t, v) (by simp)) (fun hvw => h hvw.symm)

theorem filterMap_stats_fst (stats : List (TeamId × S)) (order : List TeamId) :
    (order.filterMap (fun id => (alist_get stats id).map (fun v => (id, v)))).map Prod.fst
      = order.filter (fun id => (alist_get stats id).isSome) := by
  induction order with
  | nil => simp
  | cons a rest ih => cases h : alist_get stats a <;> simp [h, ih]

theorem mem_filterMap_stats (stats : List (TeamId × S)) (order : List TeamId)
    (p : TeamId × S)
    (hp : p ∈ order.filterMap (fun id => (alist_get stats id).map (fun v => (id, v)))) :
    alist_get stats p.1 = some p.2 := by
  rcases List.mem_filterMap.mp hp with ⟨a, _, ha⟩
  cases h : alist_get stats a with
  | none => rw [h] at ha; cases ha
  | some v =>
    rw [h] at ha
    have hpv : (a, v) = p := by simpa using ha
    rw [← hpv]
    exact h

/-- The properties claimed of a sub-ordering rule's output, relative to the
statistic mapping `stats` and the input tied subset `order`: the flattened
output is a permutation of the input teams that have a statistic (absent
teams dropped); every output subset is non-empty and consists of teams whose
statistic equals the subset's common value; and the subsets' values are
strictly decreasing (best to worst). -/
abbrev c2props (stats : List (TeamId × S)) (order : List TeamId)
    (L : List (S × List TeamId)) : Prop :=
  ((L.map Prod.snd).flatten).Perm (order.filter (fun id => (alist_get stats id).isSome)) ∧
  (∀ p ∈ L, p.2 ≠ [] ∧ ∀ t ∈ p.2, alist_get stats t = some p.1) ∧
  List.Chain' (fun a b : S × List TeamId => b.1 < a.1) L

theorem stat_order_core (stats : List (TeamId × S)) (order : List TeamId)
    (hp : ∃ t ∈ order, (alist_get stats t).isSome) :
    ∃ L, group_by_stat (List.insertionSort statLe
        (order.filterMap (fun id => (alist_get stats id).map (fun v => (id, v))))) =
      some (L.map Prod.snd) ∧ c2props stats order L := by
  obtain ⟨t0, ht0, hs0⟩ := hp
  obtain ⟨v0, hv0⟩ := Option.isSome_iff_exists.mp hs0
  have hts_ne : order.filterMap (fun id => (alist_get stats id).map (fun v => (id, v))) ≠ [] := by
    intro hnil
    have : (t0, v0) ∈ order.filterMap (fun id => (alist_get stats id).map (fun v => (id, v))) :=
      List.mem_filterMap.mpr ⟨t0, ht0, by rw [hv0]; rfl⟩
    rw [hnil] at this
    cases this
  have hperm : (List.insertionSort statLe
      (order.filterMap (fun id => (alist_get stats id).map (fun v => (id, v))))).Perm
      (order.filterMap (fun id => (alist_get stats id).map (fun v => (id, v)))) :=
    List.perm_insertionSort statLe _
  have hsorted : List.Sorted statLe (List.insertionSort statLe
      (order.filterMap (fun id => (alist_get stats id).map (fun v => (id, v))))) :=
    List.sorted_insertionSort statLe _
  have hsort_ne : List.insertionSort statLe
      (order.filterMap (fun id => (alist_get stats id).map (fun v => (id, v)))) ≠ [] := by
    intro hnil
    apply hts_ne
    have h2 := hperm.symm
    rw [hnil] at h2
    exact List.Perm.eq_nil h2
  obtain ⟨x, xs, hrev⟩ : ∃ x xs, (List.insertionSort statLe
      (order.filterMap (fun id => (alist_get stats id).map (fun v => (id, v))))).reverse
        = x :: xs := by
    cases hr : (List.insertionSort statLe
        (order.filterMap (fun id => (alist_get stats id).map (fun v => (id, v))))).reverse with
    | nil => exact absurd (List.reverse_eq_nil_iff.mp hr) hsort_ne
    | cons y ys => exact ⟨y, ys, rfl⟩
  refine ⟨foldRunsV x.2 [x.1] xs, group_by_stat_eq x xs _ hrev, ?_, ?_, ?_⟩
  · rw [foldRunsV_flatten]
    have h1 : ([x.1] ++ xs.map Prod.fst) = (x :: xs).map Prod.fst := by simp
    rw [h1, ← hrev, ← filterMap_stats_fst stats order]
    exact ((List.reverse_perm _).map Prod.fst).trans (hperm.map Prod.fst)
  · intro p hp
    have hmem : ∀ q ∈ (x :: xs), alist_get stats q.1 = some q.2 := by
      intro q hq
      refine mem_filterMap_stats stats order q ?_
      have : q ∈ (List.insertionSort statLe
          (order.filterMap (fun id => (alist_get stats id).map (fun v => (id, v))))).reverse :=
        hrev ▸ hq
      exact hperm.mem_iff.mp (List.mem_reverse.mp this)
    refine ⟨foldRunsV_chunk_ne_nil x.2 [x.1] xs (by simp) p hp, ?_⟩
    exact foldRunsV_chunk_vals (fun t v => alist_get stats t = some v) x.2 [x.1] xs
      (fun u hu => by rw [List.mem_singleton.mp hu]; exact hmem x (by simp))
      (fun q hq => hmem q (by simp [hq])) p hp
  · have hpairwise : List.Pairwise (fun a b : TeamId × S => b.2 ≤ a.2) (x :: xs) := by
      rw [← hrev]
      exact List.pairwise_reverse.mpr hsorted
    rw [List.pairwise_cons] at hpairwise
    exact foldRunsV_chain x.2 [x.1] xs hpairwise.1 hpairwise.2

/-- Claim C2: for a tied subset handed to a sub-ordering rule (all-games or
internal variant) whose statistic computation succeeds and covers at least one
of the subset's teams, every team absent from the computed mapping is dropped
from the output, and the remaining teams are sorted by statistic value and
folded best-to-worst, merging consecutive equal values into one subset and
starting a new subset on any value change, so the output is a best-to-worst
tied-subset sequence over at most the input teams. -/
theorem c2_sub_ordering_rule (U : UnaryStat S) (group : Group) (order : List TeamId)
    (stats istats : List (TeamId × S))
    (horder : 2 ≤ order.length)
    (hall : team_stats U group = some stats)
    (hint : internal_team_stats U group order = some istats)
    (hp1 : ∃ t ∈ order, (alist_get stats t).isSome)
    (hp2 : ∃ t ∈ order, (alist_get istats t).isSome) :
    (∃ L, allGroupStatOrder U group order = some (L.map Prod.snd) ∧
      c2props stats order L) ∧
    (∃ L, internalGroupStatOrder U group order = some (L.map Prod.snd) ∧
      c2props istats order L) := by
  constructor
  · obtain ⟨L, hL, hprops⟩ := stat_order_core stats order hp1
    refine ⟨L, ?_, hprops⟩
    show (team_stats U group).bind
      (fun stats_all_teams => group_by_stat (List.insertionSort statLe
        (order.filterMap (fun id => (alist_get stats_all_teams id).map (fun v => (id, v))))))
      = some (L.map Prod.snd)
    rw [hall, Option.some_bind]
    exact hL
  · obtain ⟨L, hL, hprops⟩ := stat_order_core istats order hp2
    refine ⟨L, ?_, hprops⟩
    show (internal_team_stats U group order).bind
      (fun internal_stats => group_by_stat (List.insertionSort statLe
        (order.filterMap (fun id => (alist_get internal_stats id).map (fun v => (id, v))))))
      = some (L.map Prod.snd)
    rw [hint, Option.some_bind]
    exact hL

theorem c2_witness :
    (2 ≤ ([0, 1] : List TeamId).length) ∧
    team_stats groupPointStat sampleGroup = some [(0, 1), (1, 1)] ∧
    internal_team_stats groupPointStat sampleGroup [0, 1] = some [(0, 1), (1, 1)] ∧
    ((∃ L, allGroupStatOrder groupPointStat sampleGroup [0, 1] = some (L.map Prod.snd) ∧
        c2props ([(0, 1), (1, 1)] : List (TeamId × Int)) [0, 1] L) ∧
      (∃ L, internalGroupStatOrder groupPointStat sampleGroup [0, 1] = some (L.map Prod.snd) ∧
        c2props ([(0, 1), (1, 1)] : List (TeamId × Int)) [0, 1] L)) :=
  ⟨by decide, by decide, by decide,
    c2_sub_ordering_rule groupPointStat sampleGroup [0, 1] [(0, 1), (1, 1)] [(0, 1), (1, 1)]
      (by decide) (by decide) (by decide)
      ⟨0, by decide, by decide⟩ ⟨0, by decide, by decide⟩⟩

/-! ### The partition invariant of the refinement algorithm -/

/-- A rule drawn from the repository's closed sub-ordering catalogue: the
`AllGroupStat` or `InternalGroupStat` instantiation of some statistic kind. -/
def IsStatRule (r : SubOrd) : Prop :=
  ∃ (S' : Type) (li : LinearOrder S') (z : Zero S') (ad : Add S') (U : UnaryStat S'),
    r = @allGroupStatOrder S' li z ad U ∨ r = @internalGroupStatOrder S' li z ad U

/-- The partition invariant of a tied-subset sequence relative to a group:
subsets are non-empty and pairwise disjoint, and their union is exactly the
group's team set (indeed a permutation of it). -/
abbrev IsPartition (group : Group) (so : NonStrictOrder) : Prop :=
  (∀ c ∈ so, c ≠ []) ∧ List.Pairwise List.Disjoint so ∧
  (∀ t : TeamId, t ∈ so.flatten ↔ t ∈ group.teams) ∧ so.flatten.Perm group.teams

theorem mk_partition (group : Group) (so : NonStrictOrder) (hnd : group.teams.Nodup)
    (hne : ∀ c ∈ so, c ≠ []) (hperm : so.flatten.Perm group.teams) :
    IsPartition group so := by
  have hnodup : so.flatten.Nodup := hperm.symm.nodup hnd
  exact ⟨hne, (List.nodup_flatten.mp hnodup).2, fun t => hperm.mem_iff, hperm⟩

theorem alist_add_keys {β : Type} [Add β] (m : List (TeamId × β)) (id : TeamId) (d : β)
    (m' : List (TeamId × β)) (h : alist_add m id d = some m') :
    m'.map Prod.fst = m.map Prod.fst := by
  induction m generalizing m' with
  | nil => cases h
  | cons p rest ih =>
    obtain ⟨k, v⟩ := p
    by_cases hk : k = id
    · rw [alist_add, if_pos hk] at h
      have := Option.some_inj.mp h
      rw [← this]
      simp
    · rw [alist_add, if_neg hk] at h
      cases hr : alist_add rest id d with
      | none => rw [hr] at h; cases h
      | some r =>
        rw [hr] at h
        have := Option.some_inj.mp (by simpa using h)
        rw [← this]
        simpa using ih r hr

theorem stats_fold_keys (U : UnaryStat S) :
    ∀ (games : List PlayedGroupGame) (acc stats : List (TeamId × S)),
      games.foldlM
        (fun acc game =>
          (alist_add acc game.home (U.stat game).1).bind
            (fun acc => alist_add acc game.away (U.stat game).2)) acc = some stats →
      stats.map Prod.fst = acc.map Prod.fst := by
  intro games
  induction games with
  | nil =>
    intro acc stats h
    rw [List.foldlM_nil] at h
    have : acc = stats := Option.some_inj.mp h
    rw [this]
  | cons g games ih =>
    intro acc stats h
    simp only [List.foldlM_cons] at h
    cases h1 : alist_add acc g.home (U.stat g).1 with
    | none =>
      rw [h1] at h
      simp at h
    | some m1 =>
      rw [h1] at h
      simp only [Option.bind_eq_bind, Option.some_bind] at h
      cases h2 : alist_add m1 g.away (U.stat g).2 with
      | none =>
        rw [h2] at h
        simp at h
      | some m2 =>
        rw [h2] at h
        simp only [Option.bind_eq_bind, Option.some_bind] at h
        calc stats.map Prod.fst = m2.map Prod.fst := ih m2 stats h
          _ = m1.map Prod.fst := alist_add_keys m1 g.away (U.stat g).2 m2 h2
          _ = acc.map Prod.fst := alist_add_keys acc g.home (U.stat g).1 m1 h1

theorem team_stats_keys (U : UnaryStat S) (group : Group) (stats : List (TeamId × S))
    (h : team_stats U group = some stats) : stats.map Prod.fst = group.teams := by
  have := stats_fold_keys U group.played_games
    (group.teams.map (fun team => (team, 0))) stats h
  simpa [Function.comp_def] using this

theorem internal_team_stats_keys (U : UnaryStat S) (group : Group) (subset : List TeamId)
    (stats : List (TeamId × S)) (h : internal_team_stats U group subset = some stats) :
    stats.map Prod.fst = group.teams := by
  have := stats_fold_keys U
    (group.played_games.filter
      (fun game => decide (game.home ∈ subset) && decide (game.away ∈ subset)))
    (group.teams.map (fun team => (team, 0))) stats h
  simpa [Function.comp_def] using this

theorem mapM_some_forall2 {α β : Type} (f : α → Option β) :
    ∀ (xs : List α) (ys : List β), xs.mapM f = some ys →
      List.Forall₂ (fun x y => f x = some y) xs ys := by
  intro xs
  induction xs with
  | nil =>
    intro ys h
    rw [List.mapM_nil] at h
    have : ([] : List β) = ys := Option.some_inj.mp h
    rw [← this]
    exact List.Forall₂.nil
  | cons x xs ih =>
    intro ys h
    rw [List.mapM_cons] at h
    cases hf : f x with
    | none => rw [hf] at h; simp at h
    | some y =>
      rw [hf] at h
      cases hms : xs.mapM f with
      | none => rw [hms] at h; simp at h
      | some l =>
        rw [hms] at h
        simp only [Option.bind_eq_bind, Option.some_bind] at h
        have : y :: l = ys := by simpa using h
        rw [← this]
        exact List.Forall₂.cons hf (ih l hms)

theorem forall2_mem_right {α β : Type} {R : α → β → Prop} :
    ∀ {xs : List α} {ys : List β}, List.Forall₂ R xs ys → ∀ y ∈ ys, ∃ x ∈ xs, R x y := by
  intro xs ys h
  induction h with
  | nil => intro y hy; cases hy
  | @cons a b xs2 ys2 hab _ ih =>
    intro y hy
    rcases List.mem_cons.mp hy with hy | hy
    · exact ⟨a, by simp, by rw [hy]; exact hab⟩
    · obtain ⟨x, hx, hr⟩ := ih y hy
      exact ⟨x, by simp [hx], hr⟩

theorem flatten_perm_of_forall2 (so : NonStrictOrder) (ys : List NonStrictOrder)
    (h : List.Forall₂ (fun x y => y.flatten.Perm x) so ys) :
    ys.flatten.flatten.Perm so.flatten := by
  induction h with
  | nil => simp
  | @cons x y so2 ys2 h1 h2 ih =>
    simp only [List.flatten_cons, List.flatten_append]
    exact h1.append ih

theorem statRule_output (r : SubOrd) (hr : IsStatRule r) (group : Group)
    (x : List TeamId) (y : NonStrictOrder) (hxy : r group x = some y)
    (hsub : ∀ t ∈ x, t ∈ group.teams) (hx : x ≠ []) :
    y.flatten.Perm x ∧ ∀ c ∈ y, c ≠ [] := by
  obtain ⟨S', li, z, ad, U, hcase⟩ := hr
  letI := li
  letI := z
  letI := ad
  obtain ⟨t0, ht0⟩ := List.exists_mem_of_ne_nil x hx
  rcases hcase with hcase | hcase
  · subst hcase
    have hxy' : (team_stats U group).bind
        (fun stats => group_by_stat (List.insertionSort statLe
          (x.filterMap (fun id => (alist_get stats id).map (fun v => (id, v))))))
        = some y := hxy
    cases hst : team_stats U group with
    | none => rw [hst, Option.none_bind] at hxy'; cases hxy'
    | some stats =>
      rw [hst, Option.some_bind] at hxy'
      have hkeys : stats.map Prod.fst = group.teams := team_stats_keys U group stats hst
      have hpresent : ∀ t ∈ x, (alist_get stats t).isSome = true := by
        intro t ht
        rw [alist_get_isSome_iff, hkeys]
        exact hsub t ht
      obtain ⟨L, hL, hflat, hchunks, _⟩ :=
        stat_order_core stats x ⟨t0, ht0, hpresent t0 ht0⟩
      have hyL : y = L.map Prod.snd := Option.some_inj.mp (hxy'.symm.trans hL)
      subst hyL
      constructor
      · have hfilter : x.filter (fun id => (alist_get stats id).isSome) = x :=
          List.filter_eq_self.mpr (fun t ht => hpresent t ht)
        rw [hfilter] at hflat
        exact hflat
      · intro c hc
        obtain ⟨p, hp, hpc⟩ := List.mem_map.mp hc
        rw [← hpc]
        exact (hchunks p hp).1
  · subst hcase
    have hxy' : (internal_team_stats U group x).bind
        (fun stats => group_by_stat (List.insertionSort statLe
          (x.filterMap (fun id => (alist_get stats id).map (fun v => (id, v))))))
        = some y := hxy
    cases hst : internal_team_stats U group x with
    | none => rw [hst, Option.none_bind] at hxy'; cases hxy'
    | some stats =>
      rw [hst, Option.some_bind] at hxy'
      have hkeys : stats.map Prod.fst = group.teams :=
        internal_team_stats_keys U group x stats hst
      have hpresent : ∀ t ∈ x, (alist_get stats t).isSome = true := by
        intro t ht
        rw [alist_get_isSome_iff, hkeys]
        exact hsub t ht
      obtain ⟨L, hL, hflat, hchunks, _⟩ :=
        stat_order_core stats x ⟨t0, ht0, hpresent t0 ht0⟩
      have hyL : y = L.map Prod.snd := Option.some_inj.mp (hxy'.symm.trans hL)
      subst hyL
      constructor
      · have hfilter : x.filter (fun id => (alist_get stats id).isSome) = x :=
          List.filter_eq_self.mpr (fun t ht => hpresent t ht)
        rw [hfilter] at hflat
        exact hflat
      · intro c hc
        obtain ⟨p, hp, hpc⟩ := List.mem_map.mp hc
        rw [← hpc]
        exact (hchunks p hp).1

theorem forall2_step_rel (group : Group) (r : SubOrd) (hr : IsStatRule r) :
    ∀ (so : NonStrictOrder) (ys : List NonStrictOrder),
      List.Forall₂ (fun x y => (if 1 < x.length then r group x else some [x]) = some y) so ys →
      (∀ x ∈ so, x ≠ [] ∧ ∀ t ∈ x, t ∈ group.teams) →
      List.Forall₂ (fun x y => y.flatten.Perm x ∧ ∀ c ∈ y, c ≠ []) so ys := by
  intro so ys hf2
  induction hf2 with
  | nil => intro _; exact List.Forall₂.nil
  | @cons x y so2 ys2 hxy hrest ih =>
    intro hxp
    have hx := hxp x (by simp)
    refine List.Forall₂.cons ?_ (ih (fun z hz => hxp z (by simp [hz])))
    by_cases hlen : 1 < x.length
    · rw [if_pos hlen] at hxy
      exact statRule_output r hr group x y hxy hx.2 hx.1
    · rw [if_neg hlen] at hxy
      have hy : y = [x] := (Option.some_inj.mp hxy).symm
      subst hy
      refine ⟨by simp, ?_⟩
      intro c hc
      rw [List.mem_singleton.mp hc]
      exact hx.1

theorem step_preserves_partition (group : Group) (r : SubOrd) (so so' : NonStrictOrder)
    (hnd : group.teams.Nodup) (hr : IsStatRule r) (hP : IsPartition group so)
    (hstep : nso_step group r so = some so') : IsPartition group so' := by
  rw [nso_step_eq_mapM] at hstep
  cases hmm : so.mapM (fun x => if 1 < x.length then r group x else some [x]) with
  | none => rw [hmm] at hstep; cases hstep
  | some ys =>
    rw [hmm] at hstep
    have hso' : ys.flatten = so' := by simpa using hstep
    subst hso'
    have hf2 := mapM_some_forall2 (fun x => if 1 < x.length then r group x else some [x]) so ys hmm
    have hxprops : ∀ x ∈ so, x ≠ [] ∧ ∀ t ∈ x, t ∈ group.teams := by
      intro x hx
      refine ⟨hP.1 x hx, fun t ht => ?_⟩
      exact (hP.2.2.1 t).mp (List.mem_flatten.mpr ⟨x, hx, ht⟩)
    have hrel := forall2_step_rel group r hr so ys hf2 hxprops
    apply mk_partition group ys.flatten hnd
    · intro c hc
      obtain ⟨y, hy, hcy⟩ := List.mem_flatten.mp hc
      obtain ⟨x, hx, hrxy⟩ := forall2_mem_right hrel y hy
      exact hrxy.2 c hcy
    · exact (flatten_perm_of_forall2 so ys (hrel.imp (fun a b hab => hab.1))).trans hP.2.2.2

theorem run_preserves_partition (group : Group) (hnd : group.teams.Nodup) :
    ∀ (rules : List SubOrd) (so so' : NonStrictOrder), (∀ r ∈ rules, IsStatRule r) →
      IsPartition group so → non_strict_ordering group rules so = some so' →
      IsPartition group so' := by
  intro rules
  induction rules with
  | nil =>
    intro so so' _ hP h
    rw [non_strict_ordering] at h
    have : so = so' := Option.some_inj.mp h
    rw [← this]
    exact hP
  | cons r rules ih =>
    intro so so' hrs hP h
    rw [non_strict_ordering] at h
    by_cases hs : NonStrictGroupOrder.is_strict so
    · rw [if_pos hs] at h
      have : so = so' := Option.some_inj.mp h
      rw [← this]
      exact hP
    · rw [if_neg hs] at h
      cases hmid : nso_step group r so with
      | none => rw [hmid] at h; cases h
      | some mid =>
        rw [hmid, Option.some_bind] at h
        exact ih mid so' (fun r2 hr2 => hrs r2 (by simp [hr2]))
          (step_preserves_partition group r so mid hnd (hrs r (by simp)) hP hmid) h

/-- Claim C3: starting from the initial sequence containing all the group's
teams in one subset, the partition invariant — non-empty, pairwise disjoint
subsets whose union is exactly the group's team set — holds initially, is
preserved by every refinement step of `non_strict_ordering` whose rules come
from the statistic catalogue (no team lacking a computed statistic value,
i.e. the step does not hit the statistic-missing panic), and therefore holds
of every refinement result. -/
theorem c3_partition_invariant (group : Group) (hnd : group.teams.Nodup)
    (hne : group.teams ≠ []) :
    IsPartition group (NonStrictGroupOrder.init group) ∧
    (∀ (r : SubOrd) (so so' : NonStrictOrder), IsStatRule r → IsPartition group so →
      nso_step group r so = some so' → IsPartition group so') ∧
    (∀ (rules : List SubOrd) (so' : NonStrictOrder), (∀ r ∈ rules, IsStatRule r) →
      non_strict_ordering group rules (NonStrictGroupOrder.init group) = some so' →
      IsPartition group so') := by
  have hinit : IsPartition group (NonStrictGroupOrder.init group) := by
    apply mk_partition group _ hnd
    · intro c hc
      rw [List.mem_singleton.mp hc]
      exact hne
    · simp [NonStrictGroupOrder.init, Group.team_ids]
  refine ⟨hinit, ?_, ?_⟩
  · intro r so so' hr hP hstep
    exact step_preserves_partition group r so so' hnd hr hP hstep
  · intro rules so' hrs h
    exact run_preserves_partition group hnd rules _ so' hrs hinit h

theorem c3_witness :
    sampleGroup.teams.Nodup ∧ sampleGroup.teams ≠ [] ∧
    IsPartition sampleGroup (NonStrictGroupOrder.init sampleGroup) :=
  ⟨by decide, by decide, (c3_partition_invariant sampleGroup (by decide) (by decide)).1⟩

end Wwc
